import Mathlib

/-
Verification of the nifty-breadth analytics core against its design
specification.

The two components embedded here are:
  * `calculate_breadth` (fetch_breadth_data.py): trailing 200-day SMA with
    min_periods=150, above/below/new-listing counts, percentage, and the
    equal-weighted index built from `pct_change` (pandas default, which
    forward-fills gaps) compounded from a base of 100;
  * `calculate_rrg_metrics` (rrg_helper.py) and `get_quadrant` (app.py):
    resampling (daily pass-through, week-ending-Friday, calendar month end),
    inner-join alignment, RS = 100*asset/benchmark, rolling-14 and rolling-9
    smoothing, dropna, last-30 truncation, and quadrant classification.

Prices and derived quantities are modelled as rationals; a missing value
(NaN in the source) is `none`.  A price panel is row-major: one row per
date (strictly increasing), one entry per ticker column.
-/

namespace NiftyBreadth

/-- Trailing rolling mean over the last `w` entries of a column, defined when
at least `m` of them are present (`pandas.rolling(window=w, min_periods=m)`). -/
def rollingMean (w m : ℕ) (col : List (Option ℚ)) : List (Option ℚ) :=
  (List.range col.length).map (fun t =>
    let window := (col.take (t+1)).drop (t+1-w)
    let vals := window.filterMap id
    if m ≤ vals.length then some (vals.sum / (vals.length : ℚ)) else none)

/-- A price panel: `nCols` ticker columns, one row of optional prices per date. -/
structure Panel where
  nCols : ℕ
  rows : List (List (Option ℚ))

/-- Price of ticker `j` on date `t` (missing outside the panel). -/
def priceAt (p : Panel) (t j : ℕ) : Option ℚ := (p.rows.getD t []).getD j none

/-- Column `j` of the panel as a date-indexed series. -/
def colList (p : Panel) (j : ℕ) : List (Option ℚ) :=
  p.rows.map (fun row => row.getD j none)

/-- 200-day SMA with min_periods = 150, per cell (`sma_200` in the source). -/
def smaAt (p : Panel) (t j : ℕ) : Option ℚ :=
  (rollingMean 200 150 (colList p j)).getD t none

/-- Cell is counted as above: price and SMA present and price > SMA
(`is_above & valid_universe`). -/
def cellAboveB (p : Panel) (t j : ℕ) : Bool :=
  match priceAt p t j, smaAt p t j with
  | some x, some a => decide (a < x)
  | _, _ => false

/-- Cell belongs to the valid universe: price and SMA both present. -/
def cellValidB (p : Panel) (t j : ℕ) : Bool :=
  (priceAt p t j).isSome && (smaAt p t j).isSome

/-- Cell is a new listing: price present, SMA still undefined. -/
def cellNewB (p : Panel) (t j : ℕ) : Bool :=
  (priceAt p t j).isSome && (smaAt p t j).isNone

/-- `above_count` on date `t`. -/
def aboveCount (p : Panel) (t : ℕ) : ℕ :=
  ((List.range p.nCols).filter (fun j => cellAboveB p t j)).length

/-- `total_valid` on date `t`. -/
def totalValid (p : Panel) (t : ℕ) : ℕ :=
  ((List.range p.nCols).filter (fun j => cellValidB p t j)).length

/-- `below_count = total_valid - above_count` (source line 233). -/
def belowCount (p : Panel) (t : ℕ) : ℕ := totalValid p t - aboveCount p t

/-- `new_stock_count` on date `t`. -/
def newCount (p : Panel) (t : ℕ) : ℕ :=
  ((List.range p.nCols).filter (fun j => cellNewB p t j)).length

/-- `total_trading = total_valid + new_stock_count`. -/
def totalTrading (p : Panel) (t : ℕ) : ℕ := totalValid p t + newCount p t

/-- `percentage = (above_count / total_valid) * 100`, NaN (0/0) filled with 0. -/
def percentage (p : Panel) (t : ℕ) : ℚ :=
  if totalValid p t = 0 then 0
  else ((aboveCount p t : ℚ) / (totalValid p t : ℚ)) * 100

/-- Number of present observations in the trailing 200-row window ending at
date `t` of column `j` (what `min_periods` is compared against). -/
def windowObs (p : Panel) (t j : ℕ) : ℕ :=
  ((((colList p j).take (t+1)).drop (t+1-200)).filterMap id).length

/-- Cell is classified Below: in the valid universe and not above, i.e.
price ≤ SMA (the `else` branch of the source's classification). -/
def cellBelowB (p : Panel) (t j : ℕ) : Bool :=
  cellValidB p t j && !cellAboveB p t j

/-- Forward-fill worker: carries the last seen value over gaps. -/
def ffillGo : Option ℚ → List (Option ℚ) → List (Option ℚ)
  | _, [] => []
  | acc, none :: rest => acc :: ffillGo acc rest
  | _, some x :: rest => some x :: ffillGo (some x) rest

/-- Forward-fill of a column (`fillna(method=pad)`), as performed implicitly by
`pct_change()` with its default `fill_method`. -/
def ffill (col : List (Option ℚ)) : List (Option ℚ) := ffillGo none col

/-- Last present value of a list of optional values (later entries win). -/
def lastSome (vs : List (Option ℚ)) : Option ℚ :=
  vs.foldl (fun acc v => match v with | some x => some x | none => acc) none

/-- `pct_change()` of one column: forward-fill, then `filled[t]/filled[t-1] - 1`
(undefined at `t = 0` and while no observation has been seen yet). -/
def pctChangeCol (col : List (Option ℚ)) : List (Option ℚ) :=
  (List.range col.length).map (fun t =>
    if t = 0 then none
    else
      match (ffill col).getD (t-1) none, (ffill col).getD t none with
      | some a, some b => some (b / a - 1)
      | _, _ => none)

/-- Daily return of ticker `j` on date `t` (`daily_returns` in the source). -/
def dailyReturnAt (p : Panel) (t j : ℕ) : Option ℚ :=
  (pctChangeCol (colList p j)).getD t none

/-- The available per-ticker returns on date `t`. -/
def returnsAt (p : Panel) (t : ℕ) : List ℚ :=
  (List.range p.nCols).filterMap (fun j => dailyReturnAt p t j)

/-- `index_daily_return = daily_returns.mean(axis=1)`, with the NaN of an empty
cross-section filled by 0 (`fillna(0)` before compounding). -/
def indexDailyReturn (p : Panel) (t : ℕ) : ℚ :=
  let rs := returnsAt p t
  if rs.length = 0 then 0 else rs.sum / (rs.length : ℚ)

/-- The index's daily return series, one entry per panel date. -/
def returnsList (p : Panel) : List ℚ :=
  (List.range p.rows.length).map (fun t => indexDailyReturn p t)

/-- Cumulative product accumulator: `(1 + r).cumprod() * base`. -/
def cumprodFrom : ℚ → List ℚ → List ℚ
  | _, [] => []
  | acc, r :: rest => (acc * (1 + r)) :: cumprodFrom (acc * (1 + r)) rest

/-- `index_close = (1 + index_daily_return.fillna(0)).cumprod() * 100`. -/
def indexCloseList (p : Panel) : List ℚ := cumprodFrom 100 (returnsList p)

/-- One row of the Breadth Time Series. -/
structure BreadthRow where
  above : ℕ
  below : ℕ
  total : ℕ
  percentage : ℚ
  indexClose : ℚ
deriving DecidableEq

/-- `calculate_breadth` (fetch_breadth_data.py): the Breadth Time Series,
one row per panel date. -/
def calculate_breadth (p : Panel) : List BreadthRow :=
  (List.range p.rows.length).map (fun t =>
    { above := aboveCount p t
      below := belowCount p t
      total := totalTrading p t
      percentage := percentage p t
      indexClose := (indexCloseList p).getD t 0 })

/-- Modelled from the spec (for comparison with `dailyReturnAt` only): the
per-ticker simple daily return `price[t]/price[t-1] - 1`, "undefined at the
first observation or across a gap" — no forward filling. -/
def specDailyReturnAt (p : Panel) (t j : ℕ) : Option ℚ :=
  if t = 0 then none
  else
    match priceAt p (t-1) j, priceAt p t j with
    | some a, some b => some (b / a - 1)
    | _, _ => none

/-- Modelled from the spec: the per-date returns available under the spec's
gap-excluding reading. -/
def specReturnsAt (p : Panel) (t : ℕ) : List ℚ :=
  (List.range p.nCols).filterMap (fun j => specDailyReturnAt p t j)

/-- Modelled from the spec: cross-sectional average of the available spec
returns, 0 when none is available. -/
def specIndexDailyReturn (p : Panel) (t : ℕ) : ℚ :=
  let rs := specReturnsAt p t
  if rs.length = 0 then 0 else rs.sum / (rs.length : ℚ)

/-- Gregorian leap year. -/
def isLeap (y : ℕ) : Bool := y % 4 = 0 && (y % 100 ≠ 0 || y % 400 = 0)

/-- Number of days in a civil month. -/
def daysInMonth (y m : ℕ) : ℕ :=
  if m = 2 then (if isLeap y then 29 else 28)
  else if m = 4 || m = 6 || m = 9 || m = 11 then 30 else 31

/-- Days since 1970-01-01 of the civil date `y-m-d` (for years ≥ 1970). -/
def daysFromCivil (y m d : ℕ) : ℕ :=
  let yAdj := if m ≤ 2 then y - 1 else y
  let era := yAdj / 400
  let yoe := yAdj % 400
  let mp := (m + 9) % 12
  let doy := (153 * mp + 2) / 5 + (d - 1)
  let doe := yoe * 365 + yoe / 4 - yoe / 100 + doy
  era * 146097 + doe - 719468

/-- Civil date `(y, m, d)` of a day count since 1970-01-01. -/
def civilFromDays (z : ℕ) : ℕ × ℕ × ℕ :=
  let z2 := z + 719468
  let era := z2 / 146097
  let doe := z2 % 146097
  let yoe := (doe - doe / 1460 + doe / 36524 - doe / 146096) / 365
  let y := yoe + era * 400
  let doy := doe - (365 * yoe + yoe / 4 - yoe / 100)
  let mp := (5 * doy + 2) / 153
  let d := doy - (153 * mp + 2) / 5 + 1
  let m := if mp < 10 then mp + 3 else mp - 9
  (if m ≤ 2 then y + 1 else y, m, d)

/-- Calendar month end containing a day (pandas resample rule `M`). -/
def monthEndLabel (z : ℕ) : ℕ :=
  let c := civilFromDays z
  daysFromCivil c.1 c.2.1 (daysInMonth c.1 c.2.1)

/-- Week-ending-Friday label of a day (pandas resample rule `W-FRI`);
day 0 = 1970-01-01 was a Thursday, so Fridays are the days `≡ 1 (mod 7)`. -/
def weekFriLabel (z : ℕ) : ℕ := z + (8 - z % 7) % 7

/-- A date-indexed series of optional values, dates as days since 1970-01-01
(one `Index_Close` column of a breadth CSV). -/
abbrev Series := List (ℕ × Option ℚ)

/-- `df.set_index('Date').sort_index()`. -/
def sortByDate (s : Series) : Series :=
  List.insertionSort (fun a b => a.1 ≤ b.1) s

/-- Group a date-sorted series into consecutive runs sharing a resample label. -/
def chunkBy (lab : ℕ → ℕ) : Series → List (ℕ × List (Option ℚ))
  | [] => []
  | e :: rest =>
    match chunkBy lab rest with
    | [] => [(lab e.1, [e.2])]
    | g :: gs =>
      if lab e.1 = g.1 then (g.1, e.2 :: g.2) :: gs
      else (lab e.1, [e.2]) :: g :: gs

/-- `_resample` (rrg_helper.py): `'D'` passes the frame through unchanged;
otherwise `rule = 'W-FRI' if timeframe == 'W' else 'M'`, the last available
observation of each period is taken (`.last()`), and empty periods are
dropped (`.dropna()`). -/
def resample (s : Series) (timeframe : String) : Series :=
  if timeframe = "D" then s
  else
    let lab := if timeframe = "W" then weekFriLabel else monthEndLabel
    (chunkBy lab s).filterMap (fun g => (lastSome g.2).map (fun v => (g.1, some v)))

/-- An aligned pair of series: `(date, asset value, benchmark value)` rows. -/
abbrev Aligned := List (ℕ × Option ℚ × Option ℚ)

/-- Index lookup of a date in a series. -/
def lookupDate (d : ℕ) (s : Series) : Option (Option ℚ) :=
  (s.find? (fun e => e.1 == d)).map (fun e => e.2)

/-- `pd.concat([asset, bench], axis=1, join='inner')`: rows for the dates
present in both series. -/
def innerJoin (a b : Series) : Aligned :=
  a.filterMap (fun e => (lookupDate e.1 b).map (fun w => (e.1, e.2, w)))

/-- `combined['RS'] = 100 * (Asset / Benchmark)`. -/
def rsList (c : Aligned) : List (Option ℚ) :=
  c.map (fun e =>
    match e.2.1, e.2.2 with
    | some x, some y => some (100 * x / y)
    | _, _ => none)

/-- `RS_MA = RS.rolling(window=14).mean()`. -/
def rsMAList (c : Aligned) : List (Option ℚ) := rollingMean 14 14 (rsList c)

/-- Pointwise `100 * a / b` on optional series (NaN-propagating). -/
def ratioOf (a b : List (Option ℚ)) : List (Option ℚ) :=
  List.zipWith (fun x y =>
    match x, y with
    | some r, some m => some (100 * r / m)
    | _, _ => none) a b

/-- `RS_Ratio = 100 * (RS / RS_MA)`. -/
def rsRatioList (c : Aligned) : List (Option ℚ) := ratioOf (rsList c) (rsMAList c)

/-- `Ratio_MA = RS_Ratio.rolling(window=9).mean()`. -/
def ratioMAList (c : Aligned) : List (Option ℚ) := rollingMean 9 9 (rsRatioList c)

/-- `RS_Momentum = 100 * (RS_Ratio / Ratio_MA)`. -/
def rsMomentumList (c : Aligned) : List (Option ℚ) := ratioOf (rsRatioList c) (ratioMAList c)

/-- Row `i` of the aligned frame has every column present
(Asset, Benchmark, RS, RS_MA, RS_Ratio, Ratio_MA, RS_Momentum). -/
def rowComplete (c : Aligned) (i : ℕ) : Bool :=
  ((c.getD i (0, none, none)).2.1).isSome
    && ((c.getD i (0, none, none)).2.2).isSome
    && ((rsList c).getD i none).isSome
    && ((rsMAList c).getD i none).isSome
    && ((rsRatioList c).getD i none).isSome
    && ((ratioMAList c).getD i none).isSome
    && ((rsMomentumList c).getD i none).isSome

/-- `combined.dropna()`: the rows of the aligned frame where every column is
present, keeping date, RS_Ratio and RS_Momentum. -/
def keptRows (c : Aligned) : List (ℕ × ℚ × ℚ) :=
  (List.range c.length).filterMap (fun i =>
    if rowComplete c i then
      ((rsRatioList c).getD i none).bind (fun r =>
        ((rsMomentumList c).getD i none).map (fun m =>
          ((c.getD i (0, none, none)).1, r, m)))
    else none)

/-- `combined.iloc[-30:]`: the last 30 surviving rows. -/
def takeLast30 (l : List (ℕ × ℚ × ℚ)) : List (ℕ × ℚ × ℚ) := l.drop (l.length - 30)

/-- One Rotation Point of the output frame. -/
structure RRGRow where
  date : ℕ
  ticker : String
  rsRatio : ℚ
  rsMomentum : ℚ
deriving DecidableEq

/-- The per-candidate loop body of `calculate_rrg_metrics`: skip empty frames,
resample, inner-join with the resampled benchmark, skip empty joins, smooth,
drop NaN rows and keep the last 30 points. -/
def perTicker (benchR : Series) (timeframe : String) (entry : String × Series) :
    List RRGRow :=
  if entry.2 = [] then []
  else
    let assetR := resample (sortByDate entry.2) timeframe
    let c := innerJoin assetR benchR
    if c = [] then []
    else (takeLast30 (keptRows c)).map (fun r => ⟨r.1, entry.1, r.2.1, r.2.2⟩)

/-- `calculate_rrg_metrics` (rrg_helper.py).  The `tail_length` argument is
accepted but never read by the source (the tail is applied by the UI). -/
def calculate_rrg_metrics (benchmark : Series) (dfDict : List (String × Series))
    (timeframe : String) (tail_length : ℕ) : List RRGRow :=
  let benchR := resample (sortByDate benchmark) timeframe
  (dfDict.map (fun entry => perTicker benchR timeframe entry)).flatten

/-- Rotation quadrants (app.py). -/
inductive Quadrant where
  | Leading
  | Weakening
  | Lagging
  | Improving
  | Unknown
deriving DecidableEq

/-- `get_quadrant` (app.py): classify the latest retained Rotation Point. -/
def get_quadrant (r m : ℚ) : Quadrant :=
  if 100 < r ∧ 100 < m then Quadrant.Leading
  else if 100 < r ∧ m < 100 then Quadrant.Weakening
  else if r < 100 ∧ m < 100 then Quadrant.Lagging
  else if r < 100 ∧ 100 < m then Quadrant.Improving
  else Quadrant.Unknown

/-! ### Helper lemmas -/

theorem mapRange_getD {α : Type} (f : ℕ → α) (n t : ℕ) (d : α) (h : t < n) :
    ((List.range n).map f).getD t d = f t := by
  rw [List.getD_eq_getElem?_getD, List.getElem?_map, List.getElem?_range h]
  rfl

theorem cellAbove_imp_valid (p : Panel) (t j : ℕ) :
    cellAboveB p t j = true → cellValidB p t j = true := by
  intro h
  cases hp : priceAt p t j <;> cases hs : smaAt p t j <;>
    simp [cellAboveB, cellValidB, hp, hs] at h ⊢

theorem aboveCount_le_totalValid (p : Panel) (t : ℕ) :
    aboveCount p t ≤ totalValid p t := by
  rw [aboveCount, totalValid, ← List.countP_eq_length_filter,
    ← List.countP_eq_length_filter]
  exact List.countP_mono_left (fun j _ => cellAbove_imp_valid p t j)

theorem length_filter_and_not {α : Type} (l : List α) (q r : α → Bool)
    (h : ∀ a ∈ l, r a = true → q a = true) :
    (l.filter q).length - (l.filter r).length
      = (l.filter (fun a => q a && !r a)).length := by
  induction l with
  | nil => rfl
  | cons a l ih =>
    have h' : ∀ b ∈ l, r b = true → q b = true :=
      fun b hb => h b (List.mem_cons_of_mem a hb)
    have hle : (l.filter r).length ≤ (l.filter q).length := by
      rw [← List.countP_eq_length_filter, ← List.countP_eq_length_filter]
      exact List.countP_mono_left h'
    cases hr : r a with
    | true =>
      have hq : q a = true := h a (List.mem_cons_self a l) hr
      rw [List.filter_cons, List.filter_cons, List.filter_cons, if_pos hq, if_pos hr,
        if_neg (by simp [hr])]
      simp only [List.length_cons, Nat.succ_sub_succ]
      exact ih h'
    | false =>
      cases hq : q a with
      | true =>
        rw [List.filter_cons, List.filter_cons, List.filter_cons, if_pos hq,
          if_neg (by simp [hr]), if_pos (by simp [hq, hr])]
        simp only [List.length_cons]
        rw [← ih h']
        omega
      | false =>
        rw [List.filter_cons, List.filter_cons, List.filter_cons,
          if_neg (by simp [hq]), if_neg (by simp [hr]), if_neg (by simp [hq])]
        exact ih h'

theorem ffillGo_length (col : List (Option ℚ)) :
    ∀ acc : Option ℚ, (ffillGo acc col).length = col.length := by
  induction col with
  | nil => intro acc; rfl
  | cons v rest ih =>
    intro acc
    cases v with
    | none => simpa [ffillGo] using ih acc
    | some x => simpa [ffillGo] using ih (some x)

theorem ffillGo_getD (col : List (Option ℚ)) :
    ∀ (acc : Option ℚ) (t : ℕ), t < col.length →
      (ffillGo acc col).getD t none
        = (col.take (t+1)).foldl
            (fun a v => match v with | some x => some x | none => a) acc := by
  induction col with
  | nil => intro acc t h; exact absurd h (by simp)
  | cons v rest ih =>
    intro acc t h
    cases v with
    | none =>
      cases t with
      | zero => rfl
      | succ t =>
        have h2 : t < rest.length := by simpa using h
        show (ffillGo acc rest).getD t none = _
        exact ih acc t h2
    | some x =>
      cases t with
      | zero => rfl
      | succ t =>
        have h2 : t < rest.length := by simpa using h
        show (ffillGo (some x) rest).getD t none = _
        exact ih (some x) t h2

theorem ffill_getD (col : List (Option ℚ)) (t : ℕ) (h : t < col.length) :
    (ffill col).getD t none = lastSome (col.take (t+1)) :=
  ffillGo_getD col none t h

theorem lastSome_take_succ_of_some {col : List (Option ℚ)} {t : ℕ} {b : ℚ}
    (h : t < col.length) (hb : col.getD t none = some b) :
    lastSome (col.take (t+1)) = some b := by
  rw [List.getD_eq_getElem _ _ h] at hb
  rw [lastSome, List.take_succ, List.getElem?_eq_getElem h, hb,
    List.foldl_append]
  rfl

theorem lastSome_take_succ_of_none {col : List (Option ℚ)} {t : ℕ}
    (h : t < col.length) (hb : col.getD t none = none) :
    lastSome (col.take (t+1)) = lastSome (col.take t) := by
  rw [List.getD_eq_getElem _ _ h] at hb
  rw [lastSome, List.take_succ, List.getElem?_eq_getElem h, hb,
    List.foldl_append, lastSome]
  rfl

theorem foldl_lastSome_mem (l : List (Option ℚ)) :
    ∀ (acc : Option ℚ) (a : ℚ),
      l.foldl (fun a v => match v with | some x => some x | none => a) acc = some a →
      some a ∈ l ∨ acc = some a := by
  induction l with
  | nil => intro acc a h; exact Or.inr h
  | cons v rest ih =>
    intro acc a h
    cases v with
    | none =>
      rcases ih acc a h with h1 | h1
      · exact Or.inl (List.mem_cons_of_mem _ h1)
      · exact Or.inr h1
    | some x =>
      rcases ih (some x) a h with h1 | h1
      · exact Or.inl (List.mem_cons_of_mem _ h1)
      · exact Or.inl (by rw [h1]; exact List.mem_cons_self _ _)

theorem lastSome_mem {l : List (Option ℚ)} {a : ℚ} (h : lastSome l = some a) :
    some a ∈ l := by
  rcases foldl_lastSome_mem l none a h with h1 | h1
  · exact h1
  · exact Option.noConfusion h1

theorem lastSome_of_all_none {l : List (Option ℚ)} (h : ∀ v ∈ l, v = none) :
    lastSome l = none := by
  induction l with
  | nil => rfl
  | cons v rest ih =>
    have hv := h v (List.mem_cons_self _ _)
    subst hv
    exact ih (fun w hw => h w (List.mem_cons_of_mem _ hw))

theorem colList_length (p : Panel) (j : ℕ) :
    (colList p j).length = p.rows.length := by
  rw [colList, List.length_map]

theorem colList_getD (p : Panel) (j t : ℕ) (h : t < p.rows.length) :
    (colList p j).getD t none = priceAt p t j := by
  rw [priceAt, List.getD_eq_getElem _ _ h, colList, List.getD_eq_getElem?_getD,
    List.getElem?_map, List.getElem?_eq_getElem h]
  rfl

theorem colList_pos (p : Panel) (j : ℕ)
    (hpos : ∀ t x, priceAt p t j = some x → 0 < x) :
    ∀ v ∈ colList p j, ∀ x, v = some x → 0 < x := by
  intro v hv x hx
  obtain ⟨i, hi, hvi⟩ := List.mem_iff_getElem.mp hv
  have hlen : i < p.rows.length := by rw [← colList_length p j]; exact hi
  refine hpos i x ?_
  rw [← colList_getD p j i hlen, List.getD_eq_getElem _ _ hi, hvi, hx]

theorem ffill_pos (col : List (Option ℚ))
    (hcol : ∀ v ∈ col, ∀ x, v = some x → 0 < x) :
    ∀ v ∈ ffill col, ∀ x, v = some x → 0 < x := by
  intro v hv x hx
  obtain ⟨t, ht, hvt⟩ := List.mem_iff_getElem.mp hv
  have hlen : t < col.length := by
    rw [← ffillGo_length col none]; exact ht
  have hgd : lastSome (col.take (t+1)) = some x := by
    rw [← ffill_getD col t hlen, List.getD_eq_getElem _ _ ht, hvt, hx]
  exact hcol _ (List.mem_of_mem_take (lastSome_mem hgd)) x rfl

theorem pctChangeCol_length (col : List (Option ℚ)) :
    (pctChangeCol col).length = col.length := by
  rw [pctChangeCol, List.length_map, List.length_range]

theorem pctChangeCol_getD (col : List (Option ℚ)) (t : ℕ) (h : t < col.length) :
    (pctChangeCol col).getD t none
      = if t = 0 then none
        else
          match (ffill col).getD (t-1) none, (ffill col).getD t none with
          | some a, some b => some (b / a - 1)
          | _, _ => none := by
  rw [pctChangeCol, mapRange_getD _ _ _ _ h]

theorem pctChange_gt_neg_one (col : List (Option ℚ))
    (hcol : ∀ v ∈ col, ∀ x, v = some x → 0 < x) (t : ℕ) (r : ℚ)
    (h : (pctChangeCol col).getD t none = some r) : -1 < r := by
  by_cases ht : t < col.length
  · rw [pctChangeCol_getD col t ht] at h
    split at h
    · exact Option.noConfusion h
    · cases ha : (ffill col).getD (t-1) none with
      | none => rw [ha] at h; exact Option.noConfusion h
      | some a =>
        cases hb : (ffill col).getD t none with
        | none => rw [ha, hb] at h; exact Option.noConfusion h
        | some b =>
          rw [ha, hb] at h
          obtain rfl := Option.some.inj h
          have hfl : (ffill col).length = col.length := ffillGo_length col none
          have hpa : 0 < a := by
            have hta : t - 1 < (ffill col).length := by omega
            have hmem : some a ∈ ffill col := by
              rw [← ha, List.getD_eq_getElem _ _ hta]
              exact List.getElem_mem hta
            exact ffill_pos col hcol (some a) hmem a rfl
          have hpb : 0 < b := by
            have htb : t < (ffill col).length := by omega
            have hmem : some b ∈ ffill col := by
              rw [← hb, List.getD_eq_getElem _ _ htb]
              exact List.getElem_mem htb
            exact ffill_pos col hcol (some b) hmem b rfl
          have : 0 < b / a := div_pos hpb hpa
          linarith
  · rw [List.getD_eq_default] at h
    · exact Option.noConfusion h
    · rw [pctChangeCol_length]; omega

theorem returnsAt_gt_neg_one (p : Panel)
    (hpos : ∀ t j x, priceAt p t j = some x → 0 < x) (t : ℕ) :
    ∀ r ∈ returnsAt p t, -1 < r := by
  intro r hr
  obtain ⟨j, _, hj⟩ := List.mem_filterMap.mp hr
  exact pctChange_gt_neg_one (colList p j)
    (colList_pos p j (fun s x hx => hpos s j x hx)) t r hj

theorem sum_gt_neg_length (l : List ℚ) (hne : l ≠ [])
    (h : ∀ x ∈ l, -1 < x) : -(l.length : ℚ) < l.sum := by
  induction l with
  | nil => exact absurd rfl hne
  | cons x rest ih =>
    have hx := h x (List.mem_cons_self _ _)
    by_cases hr : rest = []
    · subst hr; simp only [List.sum_cons, List.sum_nil, add_zero, List.length_cons,
        List.length_nil]
      push_cast
      linarith
    · have hrest := ih hr (fun y hy => h y (List.mem_cons_of_mem _ hy))
      simp only [List.sum_cons, List.length_cons]
      push_cast
      linarith

theorem indexDailyReturn_gt_neg_one (p : Panel)
    (hpos : ∀ t j x, priceAt p t j = some x → 0 < x) (t : ℕ) :
    -1 < indexDailyReturn p t := by
  rw [indexDailyReturn]
  by_cases h0 : (returnsAt p t).length = 0
  · rw [if_pos h0]; norm_num
  · rw [if_neg h0]
    have hne : returnsAt p t ≠ [] := fun hc => h0 (by rw [hc]; rfl)
    have hlen : (0 : ℚ) < ((returnsAt p t).length : ℚ) := by
      exact_mod_cast Nat.pos_of_ne_zero h0
    rw [lt_div_iff hlen]
    have := sum_gt_neg_length (returnsAt p t) hne (returnsAt_gt_neg_one p hpos t)
    linarith

theorem cumprodFrom_pos : ∀ (l : List ℚ) (acc : ℚ), 0 < acc →
    (∀ r ∈ l, -1 < r) → ∀ v ∈ cumprodFrom acc l, 0 < v := by
  intro l
  induction l with
  | nil => intro acc _ _ v hv; exact absurd hv (by simp [cumprodFrom])
  | cons r rest ih =>
    intro acc hacc h v hv
    have hr := h r (List.mem_cons_self _ _)
    have hpos : 0 < acc * (1 + r) := by nlinarith
    rcases List.mem_cons.mp hv with h1 | h1
    · rw [h1]; exact hpos
    · exact ih (acc * (1 + r)) hpos (fun y hy => h y (List.mem_cons_of_mem _ hy)) v h1

theorem cumprodFrom_cons (acc r : ℚ) (l : List ℚ) :
    cumprodFrom acc (r :: l) = (acc * (1 + r)) :: cumprodFrom (acc * (1 + r)) l := rfl

theorem cumprodFrom_of_zeros : ∀ (l : List ℚ) (acc : ℚ), (∀ r ∈ l, r = 0) →
    cumprodFrom acc l = List.replicate l.length acc := by
  intro l
  induction l with
  | nil => intro acc _; rfl
  | cons r rest ih =>
    intro acc h
    have hr := h r (List.mem_cons_self _ _)
    show (acc * (1 + r)) :: cumprodFrom (acc * (1 + r)) rest = _
    have h1 : acc * (1 + r) = acc := by rw [hr]; ring
    rw [h1, List.length_cons, List.replicate_succ]
    exact congrArg _ (ih acc (fun y hy => h y (List.mem_cons_of_mem _ hy)))

/-! ### Claims -/

/-- C1: every row of the Breadth Time Series satisfies
`Above + Below + New_Listing = Total`; `Percentage = 100*Above/(Above+Below)`
when `Above + Below > 0` and `Percentage = 0` when the valid universe is empty
that day; hence `Percentage` lies in `[0, 100]`. -/
theorem claim_C1 (p : Panel) (t : ℕ) (ht : t < p.rows.length) :
    (calculate_breadth p).getD t ⟨0, 0, 0, 0, 0⟩
      = ⟨aboveCount p t, belowCount p t, totalTrading p t, percentage p t,
          (indexCloseList p).getD t 0⟩
    ∧ aboveCount p t + belowCount p t + newCount p t = totalTrading p t
    ∧ (0 < aboveCount p t + belowCount p t →
        percentage p t = 100 * (aboveCount p t : ℚ)
          / ((aboveCount p t : ℚ) + (belowCount p t : ℚ)))
    ∧ (totalValid p t = 0 → percentage p t = 0)
    ∧ 0 ≤ percentage p t
    ∧ percentage p t ≤ 100 := by
  have hle := aboveCount_le_totalValid p t
  refine ⟨?_, ?_, ?_, ?_, ?_, ?_⟩
  · rw [calculate_breadth]; exact mapRange_getD _ _ _ _ ht
  · rw [belowCount, totalTrading]; omega
  · intro hpos
    have hv : aboveCount p t + belowCount p t = totalValid p t := by
      rw [belowCount]; omega
    have hv0 : totalValid p t ≠ 0 := by omega
    rw [percentage, if_neg hv0, ← hv]
    push_cast
    ring
  · intro h0; rw [percentage, if_pos h0]
  · rw [percentage]; split
    · exact le_refl 0
    · positivity
  · rw [percentage]; split
    · norm_num
    · rename_i hv0
      have hvpos : (0 : ℚ) < (totalValid p t : ℚ) := by
        exact_mod_cast Nat.pos_of_ne_zero hv0
      have hc : (aboveCount p t : ℚ) ≤ (totalValid p t : ℚ) := by exact_mod_cast hle
      have h1 : (aboveCount p t : ℚ) / (totalValid p t : ℚ) ≤ 1 :=
        (div_le_one hvpos).mpr hc
      calc (aboveCount p t : ℚ) / (totalValid p t : ℚ) * 100
          ≤ 1 * 100 := by
            exact mul_le_mul_of_nonneg_right h1 (by norm_num)
        _ = 100 := by norm_num

/-- Witness for C1 on a concrete one-ticker, one-day panel. -/
theorem claim_C1_witness :
    0 < (Panel.mk 1 [[some 5]]).rows.length
    ∧ ((calculate_breadth (Panel.mk 1 [[some 5]])).getD 0 ⟨0, 0, 0, 0, 0⟩
        = ⟨aboveCount (Panel.mk 1 [[some 5]]) 0, belowCount (Panel.mk 1 [[some 5]]) 0,
            totalTrading (Panel.mk 1 [[some 5]]) 0, percentage (Panel.mk 1 [[some 5]]) 0,
            (indexCloseList (Panel.mk 1 [[some 5]])).getD 0 0⟩
      ∧ aboveCount (Panel.mk 1 [[some 5]]) 0 + belowCount (Panel.mk 1 [[some 5]]) 0
          + newCount (Panel.mk 1 [[some 5]]) 0 = totalTrading (Panel.mk 1 [[some 5]]) 0
      ∧ (0 < aboveCount (Panel.mk 1 [[some 5]]) 0 + belowCount (Panel.mk 1 [[some 5]]) 0 →
          percentage (Panel.mk 1 [[some 5]]) 0
            = 100 * (aboveCount (Panel.mk 1 [[some 5]]) 0 : ℚ)
              / ((aboveCount (Panel.mk 1 [[some 5]]) 0 : ℚ)
                 + (belowCount (Panel.mk 1 [[some 5]]) 0 : ℚ)))
      ∧ (totalValid (Panel.mk 1 [[some 5]]) 0 = 0 → percentage (Panel.mk 1 [[some 5]]) 0 = 0)
      ∧ 0 ≤ percentage (Panel.mk 1 [[some 5]]) 0
      ∧ percentage (Panel.mk 1 [[some 5]]) 0 ≤ 100) :=
  ⟨by decide, claim_C1 (Panel.mk 1 [[some 5]]) 0 (by decide)⟩

/-- C4: with `W = 200` and `M = 150`, the trailing moving average of a
`(date, ticker)` cell is defined exactly when at least 150 present observations
exist in the trailing 200-row window, and each cell with a present price is
classified into exactly one of Above (price > average), Below (price ≤ average
with average defined) or New Listing (average undefined); moreover the Below
count is exactly the count of Below cells. -/
theorem claim_C4 (p : Panel) (t j : ℕ) (ht : t < p.rows.length) :
    ((smaAt p t j).isSome ↔ 150 ≤ windowObs p t j)
    ∧ (∀ x : ℚ, priceAt p t j = some x →
        ((∃ a, smaAt p t j = some a ∧ a < x)
          ∨ (∃ a, smaAt p t j = some a ∧ x ≤ a)
          ∨ smaAt p t j = none)
        ∧ ¬((∃ a, smaAt p t j = some a ∧ a < x) ∧ (∃ a, smaAt p t j = some a ∧ x ≤ a))
        ∧ ¬((∃ a, smaAt p t j = some a ∧ a < x) ∧ smaAt p t j = none)
        ∧ ¬((∃ a, smaAt p t j = some a ∧ x ≤ a) ∧ smaAt p t j = none))
    ∧ belowCount p t = ((List.range p.nCols).filter (fun i => cellBelowB p t i)).length := by
  refine ⟨?_, ?_, ?_⟩
  · have hlen : t < (colList p j).length := by
      rw [colList, List.length_map]; exact ht
    rw [smaAt, rollingMean, mapRange_getD _ _ _ _ hlen]
    simp only [windowObs]
    split
    · rename_i hcond
      simpa using hcond
    · rename_i hcond
      simpa using hcond
  · intro x _
    cases hs : smaAt p t j with
    | none =>
      refine ⟨Or.inr (Or.inr rfl), ?_, ?_, ?_⟩
      · rintro ⟨⟨a, ha, _⟩, _⟩; exact Option.noConfusion ha
      · rintro ⟨⟨a, ha, _⟩, _⟩; exact Option.noConfusion ha
      · rintro ⟨⟨a, ha, _⟩, _⟩; exact Option.noConfusion ha
    | some a =>
      rcases lt_or_le a x with hax | hax
      · refine ⟨Or.inl ⟨a, rfl, hax⟩, ?_, ?_, ?_⟩
        · rintro ⟨⟨a1, ha1, h1⟩, ⟨a2, ha2, h2⟩⟩
          obtain rfl := Option.some.inj ha1
          obtain rfl := Option.some.inj ha2
          exact absurd h2 (not_le.mpr h1)
        · rintro ⟨⟨a1, _, _⟩, hnone⟩; exact Option.noConfusion hnone
        · rintro ⟨⟨a1, _, _⟩, hnone⟩; exact Option.noConfusion hnone
      · refine ⟨Or.inr (Or.inl ⟨a, rfl, hax⟩), ?_, ?_, ?_⟩
        · rintro ⟨⟨a1, ha1, h1⟩, ⟨a2, ha2, h2⟩⟩
          obtain rfl := Option.some.inj ha1
          obtain rfl := Option.some.inj ha2
          exact absurd h2 (not_le.mpr h1)
        · rintro ⟨⟨a1, _, _⟩, hnone⟩; exact Option.noConfusion hnone
        · rintro ⟨⟨a1, _, _⟩, hnone⟩; exact Option.noConfusion hnone
  · rw [belowCount, aboveCount, totalValid,
      length_filter_and_not _ _ _ (fun i _ => cellAbove_imp_valid p t i)]
    simp only [cellBelowB]

/-- Witness for C4 on a concrete one-ticker, one-day panel (the price is
present and the cell is a New Listing, the 200-day average being undefined). -/
theorem claim_C4_witness :
    0 < (Panel.mk 1 [[some 5]]).rows.length
    ∧ (((smaAt (Panel.mk 1 [[some 5]]) 0 0).isSome
          ↔ 150 ≤ windowObs (Panel.mk 1 [[some 5]]) 0 0)
      ∧ (∀ x : ℚ, priceAt (Panel.mk 1 [[some 5]]) 0 0 = some x →
          ((∃ a, smaAt (Panel.mk 1 [[some 5]]) 0 0 = some a ∧ a < x)
            ∨ (∃ a, smaAt (Panel.mk 1 [[some 5]]) 0 0 = some a ∧ x ≤ a)
            ∨ smaAt (Panel.mk 1 [[some 5]]) 0 0 = none)
          ∧ ¬((∃ a, smaAt (Panel.mk 1 [[some 5]]) 0 0 = some a ∧ a < x)
              ∧ (∃ a, smaAt (Panel.mk 1 [[some 5]]) 0 0 = some a ∧ x ≤ a))
          ∧ ¬((∃ a, smaAt (Panel.mk 1 [[some 5]]) 0 0 = some a ∧ a < x)
              ∧ smaAt (Panel.mk 1 [[some 5]]) 0 0 = none)
          ∧ ¬((∃ a, smaAt (Panel.mk 1 [[some 5]]) 0 0 = some a ∧ x ≤ a)
              ∧ smaAt (Panel.mk 1 [[some 5]]) 0 0 = none))
      ∧ belowCount (Panel.mk 1 [[some 5]]) 0
          = ((List.range (Panel.mk 1 [[some 5]]).nCols).filter
              (fun i => cellBelowB (Panel.mk 1 [[some 5]]) 0 i)).length) :=
  ⟨by decide, claim_C4 (Panel.mk 1 [[some 5]]) 0 0 (by decide)⟩

/-- C6: the quadrant label is a deterministic function of the latest retained
point only: `RS_Ratio > 100 ∧ RS_Momentum > 100 → Leading`,
`> 100 ∧ < 100 → Weakening`, `< 100 ∧ < 100 → Lagging`,
`< 100 ∧ > 100 → Improving`, an exact 100 on either axis gives Unknown, and
the result depends only on the signs of `RS_Ratio − 100` and
`RS_Momentum − 100`. -/
theorem claim_C6 (r m r2 m2 : ℚ) :
    (100 < r → 100 < m → get_quadrant r m = Quadrant.Leading)
    ∧ (100 < r → m < 100 → get_quadrant r m = Quadrant.Weakening)
    ∧ (r < 100 → m < 100 → get_quadrant r m = Quadrant.Lagging)
    ∧ (r < 100 → 100 < m → get_quadrant r m = Quadrant.Improving)
    ∧ (r = 100 ∨ m = 100 → get_quadrant r m = Quadrant.Unknown)
    ∧ ((100 < r ↔ 100 < r2) → (r < 100 ↔ r2 < 100) → (100 < m ↔ 100 < m2) →
        (m < 100 ↔ m2 < 100) → get_quadrant r m = get_quadrant r2 m2) := by
  refine ⟨?_, ?_, ?_, ?_, ?_, ?_⟩
  · intro h1 h2; rw [get_quadrant, if_pos ⟨h1, h2⟩]
  · intro h1 h2
    rw [get_quadrant, if_neg (by rintro ⟨_, hm⟩; exact absurd h2 (not_lt.mpr hm.le)),
      if_pos ⟨h1, h2⟩]
  · intro h1 h2
    rw [get_quadrant, if_neg (by rintro ⟨hr, _⟩; exact absurd h1 (not_lt.mpr hr.le)),
      if_neg (by rintro ⟨hr, _⟩; exact absurd h1 (not_lt.mpr hr.le)),
      if_pos ⟨h1, h2⟩]
  · intro h1 h2
    rw [get_quadrant, if_neg (by rintro ⟨hr, _⟩; exact absurd h1 (not_lt.mpr hr.le)),
      if_neg (by rintro ⟨hr, _⟩; exact absurd h1 (not_lt.mpr hr.le)),
      if_neg (by rintro ⟨_, hm⟩; exact absurd h2 (not_lt.mpr hm.le)),
      if_pos ⟨h1, h2⟩]
  · rintro (rfl | rfl)
    · rw [get_quadrant, if_neg (by rintro ⟨hr, _⟩; exact absurd hr (lt_irrefl _)),
        if_neg (by rintro ⟨hr, _⟩; exact absurd hr (lt_irrefl _)),
        if_neg (by rintro ⟨hr, _⟩; exact absurd hr (lt_irrefl _)),
        if_neg (by rintro ⟨hr, _⟩; exact absurd hr (lt_irrefl _))]
    · rw [get_quadrant, if_neg (by rintro ⟨_, hm⟩; exact absurd hm (lt_irrefl _)),
        if_neg (by rintro ⟨_, hm⟩; exact absurd hm (lt_irrefl _)),
        if_neg (by rintro ⟨_, hm⟩; exact absurd hm (lt_irrefl _)),
        if_neg (by rintro ⟨_, hm⟩; exact absurd hm (lt_irrefl _))]
  · intro h1 h2 h3 h4
    simp only [get_quadrant, h1, h2, h3, h4]

/-- Witness for C6: `(101, 102)` lies in the Leading quadrant. -/
theorem claim_C6_witness :
    (100 : ℚ) < 101 ∧ (100 : ℚ) < 102
    ∧ get_quadrant 101 102 = Quadrant.Leading :=
  ⟨by norm_num, by norm_num,
    (claim_C6 101 102 101 102).1 (by norm_num) (by norm_num)⟩

/-- C2 counterexample: on a two-ticker panel where ticker 0 trades on days 0
and 2 but is missing on day 1, the code's `pct_change` (which forward-fills)
gives ticker 0 a 0% return on the gap day and a gap-bridged return of 300% on
day 2, whereas the spec's gap-excluding return is undefined on both days; the
day-1 cross-sectional average is therefore 1 (code) instead of 2 (spec). -/
theorem claim_C2_counterexample :
    dailyReturnAt (Panel.mk 2 [[some 10, some 10], [none, some 30], [some 40, some 30]]) 1 0
      = some 0
    ∧ dailyReturnAt (Panel.mk 2 [[some 10, some 10], [none, some 30], [some 40, some 30]]) 2 0
        = some 3
    ∧ specDailyReturnAt (Panel.mk 2 [[some 10, some 10], [none, some 30], [some 40, some 30]]) 1 0
        = none
    ∧ specDailyReturnAt (Panel.mk 2 [[some 10, some 10], [none, some 30], [some 40, some 30]]) 2 0
        = none
    ∧ indexDailyReturn (Panel.mk 2 [[some 10, some 10], [none, some 30], [some 40, some 30]]) 1
        = 1
    ∧ specIndexDailyReturn (Panel.mk 2 [[some 10, some 10], [none, some 30], [some 40, some 30]]) 1
        = 2 := by
  with_unfolding_all decide

/-- C2 (amended): the equal-weighted index is built from simple daily returns
of forward-filled prices: a ticker's return is undefined at date 0 and while
no observation has been seen yet; after its first observation, a missing day
contributes a 0% return and a present day contributes the return bridged from
the last observed price; the daily return series is compounded from base 100. -/
theorem claim_C2_amended (p : Panel) (j t : ℕ) (ht : t < p.rows.length)
    (hpos : ∀ s x, priceAt p s j = some x → 0 < x) :
    (t = 0 → dailyReturnAt p t j = none)
    ∧ (lastSome ((colList p j).take t) = none → dailyReturnAt p t j = none)
    ∧ (∀ a : ℚ, 0 < t → lastSome ((colList p j).take t) = some a →
        priceAt p t j = none → dailyReturnAt p t j = some 0)
    ∧ (∀ a b : ℚ, 0 < t → lastSome ((colList p j).take t) = some a →
        priceAt p t j = some b → dailyReturnAt p t j = some (b / a - 1))
    ∧ indexCloseList p = cumprodFrom 100 (returnsList p) := by
  have hcl : t < (colList p j).length := by rw [colList_length]; exact ht
  refine ⟨?_, ?_, ?_, ?_, rfl⟩
  · intro h0
    rw [dailyReturnAt, pctChangeCol_getD _ _ hcl, if_pos h0]
  · intro hnone
    rw [dailyReturnAt, pctChangeCol_getD _ _ hcl]
    by_cases h0 : t = 0
    · rw [if_pos h0]
    · rw [if_neg h0]
      have hf : (ffill (colList p j)).getD (t-1) none = none := by
        rw [ffill_getD _ _ (by omega), show t - 1 + 1 = t from by omega]
        exact hnone
      rw [hf]
  · intro a h0 hlast hpnone
    rw [dailyReturnAt, pctChangeCol_getD _ _ hcl, if_neg (by omega)]
    have hfa : (ffill (colList p j)).getD (t-1) none = some a := by
      rw [ffill_getD _ _ (by omega), show t - 1 + 1 = t from by omega]
      exact hlast
    have hfb : (ffill (colList p j)).getD t none = some a := by
      rw [ffill_getD _ _ hcl,
        lastSome_take_succ_of_none hcl (by rw [colList_getD p j t ht]; exact hpnone)]
      exact hlast
    rw [hfa, hfb]
    have ha : 0 < a :=
      colList_pos p j hpos _ (List.mem_of_mem_take (lastSome_mem hlast)) a rfl
    show some (a / a - 1) = some 0
    rw [div_self (ne_of_gt ha)]
    norm_num
  · intro a b h0 hlast hpb
    rw [dailyReturnAt, pctChangeCol_getD _ _ hcl, if_neg (by omega)]
    have hfa : (ffill (colList p j)).getD (t-1) none = some a := by
      rw [ffill_getD _ _ (by omega), show t - 1 + 1 = t from by omega]
      exact hlast
    have hfb : (ffill (colList p j)).getD t none = some b := by
      rw [ffill_getD _ _ hcl,
        lastSome_take_succ_of_some hcl (by rw [colList_getD p j t ht]; exact hpb)]
    rw [hfa, hfb]

/-- Witness for the amended C2 on a concrete one-ticker, two-day panel. -/
theorem claim_C2_amended_witness :
    1 < (Panel.mk 1 [[some 2], [some 3]]).rows.length
    ∧ ((1 = 0 → dailyReturnAt (Panel.mk 1 [[some 2], [some 3]]) 1 0 = none)
      ∧ (lastSome ((colList (Panel.mk 1 [[some 2], [some 3]]) 0).take 1) = none →
          dailyReturnAt (Panel.mk 1 [[some 2], [some 3]]) 1 0 = none)
      ∧ (∀ a : ℚ, 0 < 1 →
          lastSome ((colList (Panel.mk 1 [[some 2], [some 3]]) 0).take 1) = some a →
          priceAt (Panel.mk 1 [[some 2], [some 3]]) 1 0 = none →
          dailyReturnAt (Panel.mk 1 [[some 2], [some 3]]) 1 0 = some 0)
      ∧ (∀ a b : ℚ, 0 < 1 →
          lastSome ((colList (Panel.mk 1 [[some 2], [some 3]]) 0).take 1) = some a →
          priceAt (Panel.mk 1 [[some 2], [some 3]]) 1 0 = some b →
          dailyReturnAt (Panel.mk 1 [[some 2], [some 3]]) 1 0 = some (b / a - 1))
      ∧ indexCloseList (Panel.mk 1 [[some 2], [some 3]])
          = cumprodFrom 100 (returnsList (Panel.mk 1 [[some 2], [some 3]]))) := by
  have hpos : ∀ s x, priceAt (Panel.mk 1 [[some 2], [some 3]]) s 0 = some x → 0 < x := by
    intro s x h
    rcases s with _ | _ | s
    · rw [show priceAt (Panel.mk 1 [[some 2], [some 3]]) 0 0 = some 2 from rfl] at h
      injection h with h2
      subst h2
      norm_num
    · rw [show priceAt (Panel.mk 1 [[some 2], [some 3]]) 1 0 = some 3 from rfl] at h
      injection h with h2
      subst h2
      norm_num
    · rw [show priceAt (Panel.mk 1 [[some 2], [some 3]]) (s+2) 0 = none from rfl] at h
      exact Option.noConfusion h
  exact ⟨by decide, claim_C2_amended (Panel.mk 1 [[some 2], [some 3]]) 0 1 (by decide) hpos⟩

/-- C5: for a panel of positive prices the equal-weighted index starts at
exactly 100 and is strictly positive at every date. -/
theorem claim_C5 (p : Panel)
    (hpos : ∀ t j x, priceAt p t j = some x → 0 < x) :
    (p.rows ≠ [] → (indexCloseList p).getD 0 0 = 100)
    ∧ ∀ v ∈ indexCloseList p, 0 < v := by
  constructor
  · intro hne
    obtain ⟨n, hn⟩ :=
      Nat.exists_eq_succ_of_ne_zero (fun hc => hne (List.length_eq_zero.mp hc))
    have hr0 : indexDailyReturn p 0 = 0 := by
      have hempty : returnsAt p 0 = [] := by
        refine List.filterMap_eq_nil_iff.mpr (fun j _ => ?_)
        rw [dailyReturnAt]
        rcases Nat.eq_zero_or_pos (colList p j).length with hc | hc
        · exact List.getD_eq_default _ _ (by rw [pctChangeCol_length]; omega)
        · rw [pctChangeCol_getD _ _ hc, if_pos rfl]
      rw [indexDailyReturn, hempty]
      rfl
    rw [indexCloseList, returnsList, hn, List.range_succ_eq_map, List.map_cons, hr0,
      cumprodFrom_cons, List.getD_cons_zero]
    norm_num
  · intro v hv
    refine cumprodFrom_pos (returnsList p) 100 (by norm_num) (fun r hr => ?_) v hv
    obtain ⟨t, _, rfl⟩ := List.mem_map.mp hr
    exact indexDailyReturn_gt_neg_one p hpos t

/-- Witness for C5 on a concrete one-ticker, two-day panel. -/
theorem claim_C5_witness :
    ((Panel.mk 1 [[some 2], [some 3]]).rows ≠ [] →
      (indexCloseList (Panel.mk 1 [[some 2], [some 3]])).getD 0 0 = 100)
    ∧ ∀ v ∈ indexCloseList (Panel.mk 1 [[some 2], [some 3]]), 0 < v := by
  have hpos : ∀ t j x, priceAt (Panel.mk 1 [[some 2], [some 3]]) t j = some x → 0 < x := by
    intro t j x h
    rcases t with _ | _ | t
    · rcases j with _ | j
      · rw [show priceAt (Panel.mk 1 [[some 2], [some 3]]) 0 0 = some 2 from rfl] at h
        injection h with h2
        subst h2
        norm_num
      · rw [show priceAt (Panel.mk 1 [[some 2], [some 3]]) 0 (j+1) = none from rfl] at h
        exact Option.noConfusion h
    · rcases j with _ | j
      · rw [show priceAt (Panel.mk 1 [[some 2], [some 3]]) 1 0 = some 3 from rfl] at h
        injection h with h2
        subst h2
        norm_num
      · rw [show priceAt (Panel.mk 1 [[some 2], [some 3]]) 1 (j+1) = none from rfl] at h
        exact Option.noConfusion h
    · rw [show priceAt (Panel.mk 1 [[some 2], [some 3]]) (t+2) j = none from rfl] at h
      exact Option.noConfusion h
  exact claim_C5 (Panel.mk 1 [[some 2], [some 3]]) hpos

/-- C8 counterexample: a one-date panel whose only entry is missing is an
all-missing panel, yet `calculate_breadth` returns one row, not an empty
Breadth Time Series. -/
theorem claim_C8_counterexample :
    (∀ t j, priceAt (Panel.mk 1 [[none]]) t j = none)
    ∧ calculate_breadth (Panel.mk 1 [[none]]) ≠ [] := by
  constructor
  · intro t j
    rcases t with _ | t
    · rcases j with _ | j <;> rfl
    · rfl
  · decide

/-- C8 (amended): for an all-missing panel `calculate_breadth` raises nothing
and returns one row per panel date (empty only when the panel has no dates),
each row having `Above = Below = Total = 0`, `Percentage = 0` and
`Index_Close = 100`. -/
theorem claim_C8_amended (p : Panel)
    (hmiss : ∀ t j, priceAt p t j = none) :
    (calculate_breadth p).length = p.rows.length
    ∧ ∀ r ∈ calculate_breadth p,
        r.above = 0 ∧ r.below = 0 ∧ r.total = 0 ∧ r.percentage = 0
          ∧ r.indexClose = 100 := by
  have hcolnone : ∀ j, ∀ v ∈ colList p j, v = none := by
    intro j v hv
    obtain ⟨i, hi, hvi⟩ := List.mem_iff_getElem.mp hv
    have hlen : i < p.rows.length := by rw [← colList_length p j]; exact hi
    rw [← hvi, ← List.getD_eq_getElem _ none hi, colList_getD p j i hlen]
    exact hmiss i j
  have hvalid : ∀ t, totalValid p t = 0 := by
    intro t
    rw [totalValid, List.length_eq_zero]
    refine List.filter_eq_nil_iff.mpr (fun j _ => ?_)
    rw [cellValidB, hmiss t j]
    simp
  have habove : ∀ t, aboveCount p t = 0 := by
    intro t
    rw [aboveCount, List.length_eq_zero]
    refine List.filter_eq_nil_iff.mpr (fun j _ => ?_)
    cases hs : smaAt p t j <;> rw [cellAboveB, hmiss t j, hs] <;> simp
  have hnew : ∀ t, newCount p t = 0 := by
    intro t
    rw [newCount, List.length_eq_zero]
    refine List.filter_eq_nil_iff.mpr (fun j _ => ?_)
    rw [cellNewB, hmiss t j]
    simp
  have hdrn : ∀ t j, dailyReturnAt p t j = none := by
    intro t j
    rw [dailyReturnAt]
    by_cases ht : t < (colList p j).length
    · rw [pctChangeCol_getD _ _ ht]
      by_cases h0 : t = 0
      · rw [if_pos h0]
      · rw [if_neg h0]
        have hf : (ffill (colList p j)).getD (t-1) none = none := by
          rw [ffill_getD _ _ (by omega)]
          exact lastSome_of_all_none
            (fun v hv => hcolnone j v (List.mem_of_mem_take hv))
        have hf2 : (ffill (colList p j)).getD t none = none := by
          rw [ffill_getD _ _ ht]
          exact lastSome_of_all_none
            (fun v hv => hcolnone j v (List.mem_of_mem_take hv))
        rw [hf, hf2]
    · exact List.getD_eq_default _ _ (by rw [pctChangeCol_length]; omega)
  have hidx : indexCloseList p = List.replicate p.rows.length 100 := by
    rw [indexCloseList]
    have hz : ∀ r ∈ returnsList p, r = 0 := by
      intro r hr
      obtain ⟨t, _, rfl⟩ := List.mem_map.mp hr
      rw [indexDailyReturn,
        show returnsAt p t = [] from
          List.filterMap_eq_nil_iff.mpr (fun j _ => hdrn t j)]
      rfl
    rw [cumprodFrom_of_zeros _ _ hz, returnsList, List.length_map, List.length_range]
  refine ⟨by rw [calculate_breadth, List.length_map, List.length_range], ?_⟩
  intro r hr
  obtain ⟨t, htmem, rfl⟩ := List.mem_map.mp hr
  have ht : t < p.rows.length := List.mem_range.mp htmem
  refine ⟨habove t, ?_, ?_, ?_, ?_⟩
  · show belowCount p t = 0
    rw [belowCount, hvalid t]
    omega
  · show totalTrading p t = 0
    rw [totalTrading, hvalid t, hnew t]
  · show percentage p t = 0
    rw [percentage, if_pos (hvalid t)]
  · show (indexCloseList p).getD t 0 = 100
    rw [hidx,
      List.getD_eq_getElem _ _ (by rw [List.length_replicate]; exact ht),
      List.getElem_replicate]

/-- Witness for the amended C8 on the concrete all-missing one-date panel. -/
theorem claim_C8_amended_witness :
    (∀ t j, priceAt (Panel.mk 1 [[none]]) t j = none)
    ∧ ((calculate_breadth (Panel.mk 1 [[none]])).length
        = (Panel.mk 1 [[none]]).rows.length
      ∧ ∀ r ∈ calculate_breadth (Panel.mk 1 [[none]]),
          r.above = 0 ∧ r.below = 0 ∧ r.total = 0 ∧ r.percentage = 0
            ∧ r.indexClose = 100) := by
  have hm : ∀ t j, priceAt (Panel.mk 1 [[none]]) t j = none := by
    intro t j
    rcases t with _ | t
    · rcases j with _ | j <;> rfl
    · rfl
  exact ⟨hm, claim_C8_amended (Panel.mk 1 [[none]]) hm⟩

theorem takeLast30_length_le (l : List (ℕ × ℚ × ℚ)) : (takeLast30 l).length ≤ 30 := by
  rw [takeLast30, List.length_drop]
  omega

theorem perTicker_eq_nil_or (benchR : Series) (tf : String) (e : String × Series) :
    perTicker benchR tf e = []
    ∨ perTicker benchR tf e
        = (takeLast30 (keptRows (innerJoin (resample (sortByDate e.2) tf) benchR))).map
            (fun r => ⟨r.1, e.1, r.2.1, r.2.2⟩) := by
  by_cases h1 : e.2 = []
  · left
    simp only [perTicker, if_pos h1]
  · by_cases h2 : innerJoin (resample (sortByDate e.2) tf) benchR = []
    · left
      simp only [perTicker, if_neg h1, if_pos h2]
    · right
      simp only [perTicker, if_neg h1, if_neg h2]

theorem perTicker_ticker (benchR : Series) (tf : String) (e : String × Series)
    (r : RRGRow) (hr : r ∈ perTicker benchR tf e) : r.ticker = e.1 := by
  rcases perTicker_eq_nil_or benchR tf e with h | h
  · rw [h] at hr
    exact absurd hr (List.not_mem_nil r)
  · rw [h] at hr
    obtain ⟨a, _, rfl⟩ := List.mem_map.mp hr
    rfl

theorem perTicker_length_le (benchR : Series) (tf : String) (e : String × Series) :
    (perTicker benchR tf e).length ≤ 30 := by
  rcases perTicker_eq_nil_or benchR tf e with h | h <;> rw [h]
  · simp
  · rw [List.length_map]
    exact takeLast30_length_le _

theorem key_unique : ∀ {l : List (String × Series)}, (l.map Prod.fst).Nodup →
    ∀ {name : String} {s : Series}, (name, s) ∈ l →
    ∀ {f : String × Series}, f ∈ l → f.1 = name → f = (name, s) := by
  intro l
  induction l with
  | nil => intro _ name s hmem; exact absurd hmem (List.not_mem_nil _)
  | cons e rest ih =>
    intro hnd name s hmem f hf hfn
    rw [List.map_cons, List.nodup_cons] at hnd
    rcases List.mem_cons.mp hmem with h1 | h1 <;> rcases List.mem_cons.mp hf with h2 | h2
    · rw [h2, ← h1]
    · exfalso
      apply hnd.1
      rw [← h1]
      exact List.mem_map.mpr ⟨f, h2, hfn⟩
    · exfalso
      apply hnd.1
      rw [h2] at hfn
      rw [hfn]
      exact List.mem_map.mpr ⟨(name, s), h1, rfl⟩
    · exact ih hnd.2 h1 h2 hfn

theorem filter_flatten_le_30 (benchR : Series) (tf : String) (name : String) :
    ∀ l : List (String × Series), (l.map Prod.fst).Nodup →
      ((l.map (fun e => perTicker benchR tf e)).flatten.filter
        (fun r => r.ticker == name)).length ≤ 30 := by
  intro l
  induction l with
  | nil => intro _; simp
  | cons e rest ih =>
    intro hnd
    rw [List.map_cons, List.nodup_cons] at hnd
    rw [List.map_cons, List.flatten_cons, List.filter_append, List.length_append]
    by_cases he : e.1 = name
    · have h1 : (List.filter (fun r => r.ticker == name) (perTicker benchR tf e)).length ≤ 30 :=
        le_trans (List.length_filter_le _ _) (perTicker_length_le benchR tf e)
      have h2 : ((rest.map (fun f => perTicker benchR tf f)).flatten.filter
          (fun r => r.ticker == name)).length = 0 := by
        rw [List.length_eq_zero]
        refine List.filter_eq_nil_iff.mpr (fun r hrmem => ?_)
        obtain ⟨lr, hlr, hrin⟩ := List.mem_flatten.mp hrmem
        obtain ⟨f, hf, rfl⟩ := List.mem_map.mp hlr
        have htick : r.ticker = f.1 := perTicker_ticker benchR tf f r hrin
        have hne : f.1 ≠ name := by
          intro hc
          apply hnd.1
          rw [he]
          exact List.mem_map.mpr ⟨f, hf, hc⟩
        simp [htick, hne]
      omega
    · have h1 : (List.filter (fun r => r.ticker == name) (perTicker benchR tf e)).length = 0 := by
        rw [List.length_eq_zero]
        refine List.filter_eq_nil_iff.mpr (fun r hrmem => ?_)
        have htick : r.ticker = e.1 := perTicker_ticker benchR tf e r hrmem
        simp [htick, he]
      have h2 := ih hnd.2
      omega

/-- C10: `tail_length` has no effect on the result of `calculate_rrg_metrics`
(any two values give identical output), and the result contains at most 30
points per ticker (the last 30 surviving the dropna step). -/
theorem claim_C10 (benchmark : Series) (dfDict : List (String × Series))
    (timeframe : String) (t1 t2 : ℕ) (hnd : (dfDict.map Prod.fst).Nodup) :
    calculate_rrg_metrics benchmark dfDict timeframe t1
      = calculate_rrg_metrics benchmark dfDict timeframe t2
    ∧ ∀ name : String,
        ((calculate_rrg_metrics benchmark dfDict timeframe t1).filter
          (fun r => r.ticker == name)).length ≤ 30 := by
  refine ⟨rfl, fun name => ?_⟩
  exact filter_flatten_le_30 (resample (sortByDate benchmark) timeframe) timeframe
    name dfDict hnd

/-- Witness for C10 on a concrete call. -/
theorem claim_C10_witness :
    ([("A", ([] : Series))].map Prod.fst).Nodup
    ∧ (calculate_rrg_metrics [] [("A", [])] "D" 1
        = calculate_rrg_metrics [] [("A", [])] "D" 2
      ∧ ∀ name : String,
          ((calculate_rrg_metrics [] [("A", [])] "D" 1).filter
            (fun r => r.ticker == name)).length ≤ 30) :=
  ⟨by decide, claim_C10 [] [("A", [])] "D" 1 2 (by decide)⟩

/-- C9: a ticker whose candidate series is empty, or whose resampled series
has no date in common with the resampled benchmark, contributes no output
rows and raises nothing; the other tickers are still processed (the result is
the concatenation of every ticker's independent output). -/
theorem claim_C9 (benchmark : Series) (dfDict : List (String × Series))
    (timeframe : String) (tl : ℕ) (name : String) (s : Series)
    (hmem : (name, s) ∈ dfDict) (hnd : (dfDict.map Prod.fst).Nodup)
    (hskip : s = []
      ∨ innerJoin (resample (sortByDate s) timeframe)
          (resample (sortByDate benchmark) timeframe) = []) :
    calculate_rrg_metrics benchmark dfDict timeframe tl
      = (dfDict.map (fun e =>
          perTicker (resample (sortByDate benchmark) timeframe) timeframe e)).flatten
    ∧ perTicker (resample (sortByDate benchmark) timeframe) timeframe (name, s) = []
    ∧ (calculate_rrg_metrics benchmark dfDict timeframe tl).filter
        (fun r => r.ticker == name) = [] := by
  have hempty :
      perTicker (resample (sortByDate benchmark) timeframe) timeframe (name, s) = [] := by
    rcases hskip with h | h
    · simp only [perTicker, if_pos (show (name, s).2 = [] from h)]
    · by_cases hs : s = []
      · simp only [perTicker, if_pos (show (name, s).2 = [] from hs)]
      · simp only [perTicker, if_neg (show ¬(name, s).2 = [] from hs)]
        rw [if_pos h]
  refine ⟨rfl, hempty, ?_⟩
  refine List.filter_eq_nil_iff.mpr (fun r hrmem => ?_)
  obtain ⟨lr, hlr, hrin⟩ := List.mem_flatten.mp hrmem
  obtain ⟨f, hf, rfl⟩ := List.mem_map.mp hlr
  have htick : r.ticker = f.1 :=
    perTicker_ticker (resample (sortByDate benchmark) timeframe) timeframe f r hrin
  by_cases hfn : f.1 = name
  · have hfe : f = (name, s) := key_unique hnd hmem hf hfn
    rw [hfe, hempty] at hrin
    exact absurd hrin (List.not_mem_nil r)
  · simp [htick, hfn]

/-- Witness for C9 on a concrete call with an empty candidate series. -/
theorem claim_C9_witness :
    (("A", ([] : Series)) ∈ [("A", ([] : Series)), ("B", ([] : Series))])
    ∧ (calculate_rrg_metrics [] [("A", []), ("B", [])] "D" 10
        = ([("A", ([] : Series)), ("B", ([] : Series))].map (fun e =>
            perTicker (resample (sortByDate []) "D") "D" e)).flatten
      ∧ perTicker (resample (sortByDate []) "D") "D" ("A", []) = []
      ∧ (calculate_rrg_metrics [] [("A", []), ("B", [])] "D" 10).filter
          (fun r => r.ticker == "A") = []) :=
  ⟨by decide,
    claim_C9 [] [("A", []), ("B", [])] "D" 10 "A" [] (by decide) (by decide)
      (Or.inl rfl)⟩

/-- C7 counterexample: calling the rotation calculator with the unknown
cadence selector `"X"` on 22 months of data silently produces the same
non-empty output as the Monthly cadence, instead of failing. -/
theorem claim_C7_counterexample :
    calculate_rrg_metrics
        ((List.range 22).map (fun k =>
          (daysFromCivil (2020 + k / 12) (k % 12 + 1) 15, some (100 : ℚ))))
        [("T", (List.range 22).map (fun k =>
          (daysFromCivil (2020 + k / 12) (k % 12 + 1) 15, some (100 : ℚ))))] "X" 10
      ≠ []
    ∧ calculate_rrg_metrics
        ((List.range 22).map (fun k =>
          (daysFromCivil (2020 + k / 12) (k % 12 + 1) 15, some (100 : ℚ))))
        [("T", (List.range 22).map (fun k =>
          (daysFromCivil (2020 + k / 12) (k % 12 + 1) 15, some (100 : ℚ))))] "M" 10
        = calculate_rrg_metrics
            ((List.range 22).map (fun k =>
              (daysFromCivil (2020 + k / 12) (k % 12 + 1) 15, some (100 : ℚ))))
            [("T", (List.range 22).map (fun k =>
              (daysFromCivil (2020 + k / 12) (k % 12 + 1) 15, some (100 : ℚ))))] "X" 10 := by
  constructor
  · with_unfolding_all decide
  · rfl

/-- C7 (amended): an unknown cadence selector is not rejected: any selector
other than `"D"` and `"W"` is treated exactly as Monthly, silently producing
monthly-resampled output rather than raising an error. -/
theorem claim_C7_amended (benchmark : Series) (dfDict : List (String × Series))
    (timeframe : String) (tl : ℕ) (hD : timeframe ≠ "D") (hW : timeframe ≠ "W") :
    calculate_rrg_metrics benchmark dfDict timeframe tl
      = calculate_rrg_metrics benchmark dfDict "M" tl := by
  have hres : ∀ s : Series, resample s timeframe = resample s "M" := by
    intro s
    rw [resample, resample, if_neg hD, if_neg (show ¬("M" = "D") from by decide),
      if_neg hW, if_neg (show ¬("M" = "W") from by decide)]
  simp only [calculate_rrg_metrics]
  rw [hres (sortByDate benchmark)]
  refine congrArg List.flatten (List.map_congr_left (fun e _ => ?_))
  simp only [perTicker]
  rw [hres (sortByDate e.2)]

/-- Witness for the amended C7: the unknown selector `"X"` behaves as `"M"`. -/
theorem claim_C7_amended_witness :
    ("X" ≠ "D") ∧ ("X" ≠ "W")
    ∧ calculate_rrg_metrics [] [] "X" 10 = calculate_rrg_metrics [] [] "M" 10 :=
  ⟨by decide, by decide, claim_C7_amended [] [] "X" 10 (by decide) (by decide)⟩

theorem rollingMean_length (w m : ℕ) (l : List (Option ℚ)) :
    (rollingMean w m l).length = l.length := by
  rw [rollingMean, List.length_map, List.length_range]

theorem filterMap_id_length_eq_iff (L : List (Option ℚ)) :
    (L.filterMap id).length = L.length ↔ ∀ o ∈ L, o.isSome = true := by
  induction L with
  | nil => simp
  | cons o rest ih =>
    cases o with
    | none =>
      have hred : List.filterMap id (none :: rest) = List.filterMap id rest := rfl
      rw [hred, List.length_cons]
      have hle := List.length_filterMap_le id rest
      constructor
      · intro h
        exact absurd h (by omega)
      · intro h
        exact absurd (h none (List.mem_cons_self _ _)) (by simp)
    | some x =>
      have hred : List.filterMap id (some x :: rest) = x :: List.filterMap id rest := rfl
      rw [hred, List.length_cons, List.length_cons]
      constructor
      · intro h o ho
        rcases List.mem_cons.mp ho with rfl | ho2
        · rfl
        · exact ih.mp (by omega) o ho2
      · intro h
        rw [ih.mpr (fun o ho => h o (List.mem_cons_of_mem _ ho))]

theorem window_getD (l : List (Option ℚ)) (t w i : ℕ)
    (hi : i < ((l.take (t+1)).drop (t+1-w)).length) :
    ((l.take (t+1)).drop (t+1-w)).getD i none = l.getD ((t+1-w) + i) none := by
  have hlen : (t+1-w) + i < l.length := by
    rw [List.length_drop, List.length_take] at hi
    omega
  rw [List.getD_eq_getElem _ _ hi, List.getElem_drop, List.getElem_take,
    List.getD_eq_getElem _ _ hlen]

theorem rollingMean_isSome_iff (w : ℕ) (hw : 0 < w) (l : List (Option ℚ)) (k : ℕ)
    (hk : ∀ i, i < l.length → ((l.getD i none).isSome = true ↔ k ≤ i))
    (t : ℕ) (ht : t < l.length) :
    ((rollingMean w w l).getD t none).isSome = true ↔ k + w ≤ t + 1 := by
  rw [rollingMean, mapRange_getD _ _ _ _ ht]
  have hWlen : ((l.take (t+1)).drop (t+1-w)).length = (t+1) - (t+1-w) := by
    rw [List.length_drop, List.length_take]
    omega
  constructor
  · intro hs
    by_cases hc : w ≤ (((l.take (t+1)).drop (t+1-w)).filterMap id).length
    case neg =>
      rw [if_neg hc] at hs
      exact absurd hs (by simp)
    case pos =>
      have hle := List.length_filterMap_le id ((l.take (t+1)).drop (t+1-w))
      have hfull : (((l.take (t+1)).drop (t+1-w)).filterMap id).length
          = ((l.take (t+1)).drop (t+1-w)).length := by omega
      have hwt : w ≤ t + 1 := by omega
      have hall := (filterMap_id_length_eq_iff _).mp hfull
      have h0 : 0 < ((l.take (t+1)).drop (t+1-w)).length := by omega
      have hmem : ((l.take (t+1)).drop (t+1-w)).getD 0 none
          ∈ (l.take (t+1)).drop (t+1-w) := by
        rw [List.getD_eq_getElem _ _ h0]
        exact List.getElem_mem h0
      have hsome := hall _ hmem
      rw [window_getD l t w 0 h0] at hsome
      have hidx : (t+1-w) + 0 < l.length := by omega
      have := (hk _ hidx).mp hsome
      omega
  · intro hks
    have hwt : w ≤ t + 1 := by omega
    have hfull : (((l.take (t+1)).drop (t+1-w)).filterMap id).length
        = ((l.take (t+1)).drop (t+1-w)).length := by
      refine (filterMap_id_length_eq_iff _).mpr (fun o ho => ?_)
      obtain ⟨i, hi, hoi⟩ := List.mem_iff_getElem.mp ho
      have hgd : ((l.take (t+1)).drop (t+1-w)).getD i none = o := by
        rw [List.getD_eq_getElem _ _ hi, hoi]
      rw [← hgd, window_getD l t w i hi]
      have hidx : (t+1-w) + i < l.length := by
        rw [hWlen] at hi
        omega
      exact (hk _ hidx).mpr (by rw [hWlen] at hi; omega)
    rw [if_pos (by rw [hfull, hWlen]; omega)]
    rfl

theorem ratioOf_length (a b : List (Option ℚ)) :
    (ratioOf a b).length = a.length ⊓ b.length := by
  simp only [ratioOf]
  rw [List.length_zipWith]

theorem ratioOf_getD_isSome (a b : List (Option ℚ)) (t : ℕ)
    (ht : t < a.length) (ht2 : t < b.length) :
    ((ratioOf a b).getD t none).isSome = true
      ↔ ((a.getD t none).isSome = true ∧ (b.getD t none).isSome = true) := by
  have hlen : t < (ratioOf a b).length := by
    rw [ratioOf_length]
    omega
  rw [List.getD_eq_getElem _ _ hlen, List.getD_eq_getElem _ _ ht,
    List.getD_eq_getElem _ _ ht2]
  simp only [ratioOf]
  rw [List.getElem_zipWith]
  cases a[t] <;> cases b[t] <;> simp

theorem rsList_length (c : Aligned) : (rsList c).length = c.length := by
  simp only [rsList]
  rw [List.length_map]

theorem rsList_isSome (c : Aligned)
    (hsome : ∀ e ∈ c, (e.2.1).isSome = true ∧ (e.2.2).isSome = true)
    (t : ℕ) (ht : t < c.length) :
    ((rsList c).getD t none).isSome = true := by
  have hlen : t < (rsList c).length := by
    rw [rsList_length]
    exact ht
  rw [List.getD_eq_getElem _ _ hlen]
  simp only [rsList]
  rw [List.getElem_map]
  obtain ⟨h1, h2⟩ := hsome _ (List.getElem_mem ht)
  obtain ⟨x, hx⟩ := Option.isSome_iff_exists.mp h1
  obtain ⟨y, hy⟩ := Option.isSome_iff_exists.mp h2
  rw [hx, hy]
  rfl

theorem filterMap_length_eq_countP {α β : Type} (f : α → Option β) (l : List α) :
    (l.filterMap f).length = l.countP (fun a => (f a).isSome) := by
  induction l with
  | nil => rfl
  | cons a rest ih =>
    cases hfa : f a with
    | none =>
      have hred : List.filterMap f (a :: rest) = List.filterMap f rest := by
        simp [List.filterMap_cons, hfa]
      rw [hred, List.countP_cons]
      simp [hfa, ih]
    | some b =>
      have hred : List.filterMap f (a :: rest) = b :: List.filterMap f rest := by
        simp [List.filterMap_cons, hfa]
      rw [hred, List.length_cons, List.countP_cons]
      simp [hfa, ih]

theorem countP_range_ge (n m : ℕ) :
    (List.range n).countP (fun i => decide (m ≤ i)) = n - m := by
  induction n with
  | zero => simp
  | succ n ih =>
    rw [List.range_succ, List.countP_append, ih]
    by_cases h : m ≤ n
    · have h1 : List.countP (fun i => decide (m ≤ i)) [n] = 1 := by simp [h]
      rw [h1]
      omega
    · have h1 : List.countP (fun i => decide (m ≤ i)) [n] = 0 := by simp [h]
      rw [h1]
      omega

/-- C3 counterexample: on 22 aligned daily periods of constant data,
`RS_Ratio` is already defined at aligned index 13 (the 14th period, inside
the first 14), `RS_Momentum` is already defined at aligned index 21 (the
22nd period, inside the first 14+9−1 = 22), and the calculator emits an
output row for that 22nd period. -/
theorem claim_C3_counterexample :
    (rsRatioList ((List.range 22).map
        (fun k => ((k : ℕ), some (100 : ℚ), some (100 : ℚ))))).getD 13 none
      = some 100
    ∧ (rsMomentumList ((List.range 22).map
        (fun k => ((k : ℕ), some (100 : ℚ), some (100 : ℚ))))).getD 21 none
        = some 100
    ∧ calculate_rrg_metrics
        ((List.range 22).map (fun k => ((k : ℕ), some (100 : ℚ))))
        [("T", (List.range 22).map (fun k => ((k : ℕ), some (100 : ℚ))))] "D" 10
        = [⟨21, "T", 100, 100⟩] := by
  refine ⟨?_, ?_, ?_⟩ <;> with_unfolding_all decide

/-- C3 (amended): for an aligned series with all values present and positive,
`RS_Ratio` is undefined exactly for the first 13 = 14−1 aligned periods
(defined from index 13 on), `RS_Momentum` exactly for the first
21 = 14+9−2 periods (defined from index 21 on), and the surviving output
rows are exactly the `length − 21` rows from aligned index 21 onwards. -/
theorem claim_C3_amended (c : Aligned)
    (hall : ∀ e ∈ c, (∃ x, e.2.1 = some x ∧ 0 < x)
      ∧ (∃ y, e.2.2 = some y ∧ 0 < y)) :
    (∀ t, t < c.length → (((rsRatioList c).getD t none).isSome = true ↔ 13 ≤ t))
    ∧ (∀ t, t < c.length →
        (((rsMomentumList c).getD t none).isSome = true ↔ 21 ≤ t))
    ∧ (keptRows c).length = c.length - 21 := by
  have hsome : ∀ e ∈ c, (e.2.1).isSome = true ∧ (e.2.2).isSome = true := by
    intro e he
    obtain ⟨⟨x, hx, _⟩, ⟨y, hy, _⟩⟩ := hall e he
    rw [hx, hy]
    exact ⟨rfl, rfl⟩
  have hrs : ∀ t, t < c.length → ((rsList c).getD t none).isSome = true :=
    fun t ht => rsList_isSome c hsome t ht
  have hrs_iff : ∀ i, i < (rsList c).length →
      (((rsList c).getD i none).isSome = true ↔ 0 ≤ i) := by
    intro i hi
    constructor
    · intro _
      omega
    · intro _
      exact hrs i (by rw [← rsList_length c]; exact hi)
  have hma : ∀ t, t < c.length →
      (((rsMAList c).getD t none).isSome = true ↔ 0 + 14 ≤ t + 1) := by
    intro t ht
    exact rollingMean_isSome_iff 14 (by norm_num) (rsList c) 0 hrs_iff t
      (by rw [rsList_length]; exact ht)
  have hmalen : (rsMAList c).length = c.length := by
    rw [show rsMAList c = rollingMean 14 14 (rsList c) from rfl,
      rollingMean_length, rsList_length]
  have hratio : ∀ t, t < c.length →
      (((rsRatioList c).getD t none).isSome = true ↔ 13 ≤ t) := by
    intro t ht
    rw [show rsRatioList c = ratioOf (rsList c) (rsMAList c) from rfl,
      ratioOf_getD_isSome _ _ t (by rw [rsList_length]; exact ht)
        (by rw [hmalen]; exact ht)]
    constructor
    · rintro ⟨_, hb⟩
      have := (hma t ht).mp hb
      omega
    · intro h13
      exact ⟨hrs t ht, (hma t ht).mpr (by omega)⟩
  have hratiolen : (rsRatioList c).length = c.length := by
    rw [show rsRatioList c = ratioOf (rsList c) (rsMAList c) from rfl,
      ratioOf_length, rsList_length, hmalen]
    omega
  have hratio_iff : ∀ i, i < (rsRatioList c).length →
      (((rsRatioList c).getD i none).isSome = true ↔ 13 ≤ i) := by
    intro i hi
    exact hratio i (by rw [← hratiolen]; exact hi)
  have hrma : ∀ t, t < c.length →
      (((ratioMAList c).getD t none).isSome = true ↔ 13 + 9 ≤ t + 1) := by
    intro t ht
    exact rollingMean_isSome_iff 9 (by norm_num) (rsRatioList c) 13 hratio_iff t
      (by rw [hratiolen]; exact ht)
  have hrmalen : (ratioMAList c).length = c.length := by
    rw [show ratioMAList c = rollingMean 9 9 (rsRatioList c) from rfl,
      rollingMean_length, hratiolen]
  have hmom : ∀ t, t < c.length →
      (((rsMomentumList c).getD t none).isSome = true ↔ 21 ≤ t) := by
    intro t ht
    rw [show rsMomentumList c = ratioOf (rsRatioList c) (ratioMAList c) from rfl,
      ratioOf_getD_isSome _ _ t (by rw [hratiolen]; exact ht)
        (by rw [hrmalen]; exact ht)]
    constructor
    · rintro ⟨_, hb⟩
      have := (hrma t ht).mp hb
      omega
    · intro h21
      exact ⟨(hratio t ht).mpr (by omega), (hrma t ht).mpr (by omega)⟩
  refine ⟨hratio, hmom, ?_⟩
  rw [keptRows, filterMap_length_eq_countP]
  refine Eq.trans (List.countP_congr ?_) (countP_range_ge c.length 21)
  intro i hi
  have hic : i < c.length := List.mem_range.mp hi
  have hmem_i : c.getD i (0, none, none) ∈ c := by
    rw [List.getD_eq_getElem _ _ hic]
    exact List.getElem_mem hic
  by_cases h21 : 21 ≤ i
  · obtain ⟨hA, hB⟩ := hsome _ hmem_i
    have hma2 : ((rsMAList c).getD i none).isSome = true :=
      (hma i hic).mpr (by omega)
    have hrat2 : ((rsRatioList c).getD i none).isSome = true :=
      (hratio i hic).mpr (by omega)
    have hrma2 : ((ratioMAList c).getD i none).isSome = true :=
      (hrma i hic).mpr (by omega)
    have hmom2 : ((rsMomentumList c).getD i none).isSome = true :=
      (hmom i hic).mpr h21
    have hcomp : rowComplete c i = true := by
      rw [rowComplete]
      simp only [Bool.and_eq_true]
      exact ⟨⟨⟨⟨⟨⟨hA, hB⟩, hrs i hic⟩, hma2⟩, hrat2⟩, hrma2⟩, hmom2⟩
    obtain ⟨r, hr⟩ := Option.isSome_iff_exists.mp hrat2
    obtain ⟨m, hm⟩ := Option.isSome_iff_exists.mp hmom2
    rw [if_pos hcomp, hr, hm]
    simp [h21]
  · have hmomf : ¬((rsMomentumList c).getD i none).isSome = true := by
      rw [hmom i hic]
      omega
    have hcomp : ¬rowComplete c i = true := by
      rw [rowComplete]
      simp only [Bool.and_eq_true]
      rintro ⟨_, hlast⟩
      exact hmomf hlast
    rw [if_neg hcomp]
    simp [h21]

/-- Witness for the amended C3 on 22 aligned periods of constant data. -/
theorem claim_C3_amended_witness :
    (∀ e ∈ (List.range 22).map
        (fun k => ((k : ℕ), some (100 : ℚ), some (100 : ℚ))),
      (∃ x, e.2.1 = some x ∧ 0 < x) ∧ (∃ y, e.2.2 = some y ∧ 0 < y))
    ∧ ((∀ t, t < ((List.range 22).map
          (fun k => ((k : ℕ), some (100 : ℚ), some (100 : ℚ)))).length →
        (((rsRatioList ((List.range 22).map
            (fun k => ((k : ℕ), some (100 : ℚ), some (100 : ℚ))))).getD t none).isSome
          = true ↔ 13 ≤ t))
      ∧ (∀ t, t < ((List.range 22).map
            (fun k => ((k : ℕ), some (100 : ℚ), some (100 : ℚ)))).length →
          (((rsMomentumList ((List.range 22).map
              (fun k => ((k : ℕ), some (100 : ℚ), some (100 : ℚ))))).getD t none).isSome
            = true ↔ 21 ≤ t))
      ∧ (keptRows ((List.range 22).map
          (fun k => ((k : ℕ), some (100 : ℚ), some (100 : ℚ))))).length
          = ((List.range 22).map
              (fun k => ((k : ℕ), some (100 : ℚ), some (100 : ℚ)))).length - 21) := by
  have hall : ∀ e ∈ (List.range 22).map
      (fun k => ((k : ℕ), some (100 : ℚ), some (100 : ℚ))),
      (∃ x, e.2.1 = some x ∧ 0 < x) ∧ (∃ y, e.2.2 = some y ∧ 0 < y) := by
    intro e he
    obtain ⟨k, _, rfl⟩ := List.mem_map.mp he
    exact ⟨⟨100, rfl, by norm_num⟩, ⟨100, rfl, by norm_num⟩⟩
  exact ⟨hall, claim_C3_amended _ hall⟩

end NiftyBreadth
